import Mathlib

/-!
Shallow embedding of `faer-qr/src/col_pivoting/inverse.rs`: the inverse
orchestrators `invert` / `invert_in_place` and their workspace sizing
functions `invert_req` / `invert_in_place_req`, together with models of the
collaborating primitives (triangular inversion, block Householder
application, row permutation, scratch requirement algebra) that live outside
the source unit and are modelled from their specified contracts.
-/

namespace FaerQrInverse

/-! ### Conjugation flag and execution policy -/

/-- Embedding of `faer_core::Conj` (`Conj::No` / `Conj::Yes`). -/
inductive Conj where
  | no
  | yes
deriving DecidableEq, Repr

/-- Action of a conjugation flag on a scalar. -/
def Conj.app {α : Type} [Star α] : Conj → α → α
  | .no, x => x
  | .yes, x => star x

/-- Embedding of `faer_core::Parallelism` (`None` or `Rayon(nthreads)`). -/
inductive Parallelism where
  | none
  | rayon (nthreads : Nat)
deriving DecidableEq, Repr

/-! ### Workspace requirement algebra

Modelled from the spec: a `Requirement{size, align}` value type with an
"either-or (max)" combinator and a "sequential/concurrent (sum)" combinator,
where size arithmetic fails explicitly (a returned `SizeOverflow` value) once
it would exceed the addressable range, instead of wrapping. -/

/-- Upper bound of the addressable range for size computations. -/
def USIZE_MAX : Nat := 2 ^ 64 - 1

/-- Embedding of `dyn_stack::SizeOverflow`: the explicit overflow error value. -/
inductive SizeOverflow where
  | sizeOverflow
deriving DecidableEq, Repr

/-- Embedding of `dyn_stack::StackReq`: a byte size together with an alignment. -/
structure StackReq where
  size : Nat
  align : Nat
deriving DecidableEq, Repr

/-- Checked multiplication: exact product, or an explicit overflow error. -/
def checkedMul (a b : Nat) : Except SizeOverflow Nat :=
  if a * b ≤ USIZE_MAX then .ok (a * b) else .error .sizeOverflow

/-- Checked addition: exact sum, or an explicit overflow error. -/
def checkedAdd (a b : Nat) : Except SizeOverflow Nat :=
  if a + b ≤ USIZE_MAX then .ok (a + b) else .error .sizeOverflow

/-- Either-or combination of two requirements: the temporaries are used at
disjoint times, so sizes and alignments are combined with `max`. -/
def StackReq.or (a b : StackReq) : StackReq :=
  ⟨max a.size b.size, max a.align b.align⟩

/-- Sequential/concurrent combination of two requirements: the temporaries are
live simultaneously, so sizes are added (with explicit overflow checking). -/
def StackReq.tryAnd (a b : StackReq) : Except SizeOverflow StackReq := do
  let s ← checkedAdd a.size b.size
  .ok ⟨s, max a.align b.align⟩

/-- Embedding of `StackReq::try_any_of`: either-or (max) composition of a list
of requirements. -/
def StackReq.tryAnyOf (l : List StackReq) : Except SizeOverflow StackReq :=
  .ok (l.foldl StackReq.or ⟨0, 1⟩)

/-- Embedding of `StackReq::try_all_of`: sequential (sum) composition of a list
of requirements. -/
def StackReq.tryAllOf (l : List StackReq) : Except SizeOverflow StackReq :=
  l.foldlM StackReq.tryAnd ⟨0, 1⟩

/-- Modelled from the spec: `faer_core::temp_mat_req::<T>(m, n)` (the crate
`faer-core` is outside the source unit). The requirement of an m×n temporary
matrix of a scalar type with byte size `szT` and alignment `alT`:
`m * n * szT` bytes, overflow-checked, at alignment `alT`. -/
def temp_mat_req (szT alT m n : Nat) : Except SizeOverflow StackReq := do
  let cnt ← checkedMul m n
  let bytes ← checkedMul cnt szT
  .ok ⟨bytes, alT⟩

/-- Modelled from the spec: `faer_core::permutation::permute_cols_in_place_req`
(outside the source unit) — the scratch the permutation-application primitive
needs for permuting an m×n matrix, namely a temporary copy of that matrix. -/
def permute_cols_in_place_req (szT alT m n : Nat) : Except SizeOverflow StackReq :=
  temp_mat_req szT alT m n

/-- Embedding of `invert_req` from the source: either-or composition of the
blocksize×ncols Householder scratch and the permutation scratch. The
`parallelism` argument is discarded (`let _ = parallelism;`). -/
def invert_req (szT alT qr_nrows qr_ncols blocksize : Nat)
    (parallelism : Parallelism) : Except SizeOverflow StackReq := do
  let _ := parallelism
  let r1 ← temp_mat_req szT alT blocksize qr_ncols
  let r2 ← permute_cols_in_place_req szT alT qr_nrows qr_ncols
  StackReq.tryAnyOf [r1, r2]

/-- Embedding of `invert_in_place_req` from the source: sequential composition
of a full nrows×ncols temporary and the out-of-place requirement. -/
def invert_in_place_req (szT alT qr_nrows qr_ncols blocksize : Nat)
    (parallelism : Parallelism) : Except SizeOverflow StackReq := do
  let r1 ← temp_mat_req szT alT qr_nrows qr_ncols
  let r2 ← invert_req szT alT qr_nrows qr_ncols blocksize parallelism
  StackReq.tryAllOf [r1, r2]

/-! ### Dense matrix views

A dynamically-shaped matrix view: row count, column count, and a total entry
function. Two views are compared entrywise inside their declared bounds. -/

structure Mat (α : Type) where
  nrows : Nat
  ncols : Nat
  entry : Nat → Nat → α

/-- Entrywise agreement inside the declared bounds, with equal shapes. -/
def Mat.EqOn {α : Type} (A B : Mat α) : Prop :=
  A.nrows = B.nrows ∧ A.ncols = B.ncols ∧
    ∀ i, i < A.nrows → ∀ j, j < A.ncols → A.entry i j = B.entry i j

instance {α : Type} [DecidableEq α] (A B : Mat α) : Decidable (A.EqOn B) := by
  unfold Mat.EqOn
  infer_instance

/-- Matrix product: the inner dimension is the left factor's column count. -/
def matMul {α : Type} [Field α] (A B : Mat α) : Mat α :=
  ⟨A.nrows, B.ncols, fun i j => ∑ k ∈ Finset.range A.ncols, A.entry i k * B.entry k j⟩

def transposeMat {α : Type} (A : Mat α) : Mat α :=
  ⟨A.ncols, A.nrows, fun i j => A.entry j i⟩

def conjMat {α : Type} [Star α] (A : Mat α) : Mat α :=
  ⟨A.nrows, A.ncols, fun i j => star (A.entry i j)⟩

/-- Conjugate transpose. -/
def ctransposeMat {α : Type} [Star α] (A : Mat α) : Mat α :=
  transposeMat (conjMat A)

def identityMat {α : Type} [Zero α] [One α] (n : Nat) : Mat α :=
  ⟨n, n, fun i j => if i = j then 1 else 0⟩

def matSub {α : Type} [Sub α] (A B : Mat α) : Mat α :=
  ⟨A.nrows, A.ncols, fun i j => A.entry i j - B.entry i j⟩

/-- Apply a conjugation flag to every entry. -/
def condConj {α : Type} [Star α] (c : Conj) (A : Mat α) : Mat α :=
  match c with
  | .no => A
  | .yes => conjMat A

/-! ### Column permutation -/

/-- Embedding of `faer_core::permutation::PermutationRef`: the forward mapping
together with its precomputed inverse. -/
structure PermutationRef where
  forward : List Nat
  inv : List Nat

/-- Dimension of the permutation (length of the forward mapping). -/
def PermutationRef.len (p : PermutationRef) : Nat := p.forward.length

/-- Embedding of `PermutationRef::inverse`: swap the two mappings. -/
def PermutationRef.inverse (p : PermutationRef) : PermutationRef := ⟨p.inv, p.forward⟩

/-! ### Triangular inversion entries

Back-substitution entries of the inverse of an upper-triangular matrix:
`X j j = (f j j)⁻¹` and, for `i < j`,
`X i j = (∑ k ∈ [i, j), X i k * f k j) * (-(f j j)⁻¹)`,
so that `X * f = 1` on the upper triangle. Structural recursion on a fuel
bounded below by `j - i`. -/

def triInvFuel {α : Type} [Field α] (f : Nat → Nat → α) : Nat → Nat → Nat → α
  | 0, _, _ => 0
  | fuel + 1, i, j =>
    if i = j then (f j j)⁻¹
    else (∑ k ∈ Finset.Ico i j, triInvFuel f fuel i k * f k j) * (-(f j j)⁻¹)

def triInvEntry {α : Type} [Field α] (f : Nat → Nat → α) (i j : Nat) : α :=
  triInvFuel f (j - i + 1) i j

/-! ### Collaborating primitives (outside the source unit) -/

/-- Modelled from the spec: `faer_core::inverse::invert_upper_triangular`
(crate `faer-core`, outside the source unit) — writes the inverse of the upper
triangle of `src` (conjugated per the flag) into the upper triangle of `dst`
and does not touch `dst`'s strictly lower triangle. -/
def invert_upper_triangular {α : Type} [Field α] [Star α] (dst src : Mat α)
    (c : Conj) (par : Parallelism) : Mat α :=
  ⟨dst.nrows, dst.ncols, fun i j =>
    if i ≤ j ∧ i < dst.nrows ∧ j < dst.ncols then
      triInvEntry (fun a b => c.app (src.entry a b)) i j
    else dst.entry i j⟩

/-- Embedding of the source's
`dst.cwise().for_each_triangular_lower(Diag::Skip, |dst| *dst = T::zero())`:
zero every in-bounds entry strictly below the diagonal. -/
def zero_lower_strict {α : Type} [Zero α] (A : Mat α) : Mat α :=
  ⟨A.nrows, A.ncols, fun i j =>
    if j < i ∧ i < A.nrows ∧ j < A.ncols then 0 else A.entry i j⟩

/-- Unit-lower-trapezoidal reflector basis of the block starting at column
`s`, of width `w`, read from the strictly lower part of `qr`. -/
def blockV {α : Type} [Zero α] [One α] (qr : Mat α) (s w : Nat) : Mat α :=
  ⟨qr.nrows, w, fun i c =>
    if i < s + c then 0 else if i = s + c then 1 else qr.entry i (s + c)⟩

/-- Upper-triangular block factor T of the block starting at column `s`, of
width `w`, read from the corresponding columns of `householder_factor`. -/
def blockT {α : Type} [Zero α] (hf : Mat α) (s w : Nat) : Mat α :=
  ⟨w, w, fun r c => if r ≤ c then hf.entry r (s + c) else 0⟩

/-- One blocked reflector `I - V·T·Vᴴ`. -/
def blockReflector {α : Type} [Field α] [StarRing α] (qr hf : Mat α)
    (s w : Nat) : Mat α :=
  matSub (identityMat qr.nrows)
    (matMul (matMul (blockV qr s w) (blockT hf s w)) (ctransposeMat (blockV qr s w)))

/-- Modelled from the spec: the orthogonal/unitary factor Q encoded compactly
by `(qr_factors, householder_factor)` — the product of the blocked reflectors,
block size = number of rows of `householder_factor`. -/
def encodedQ {α : Type} [Field α] [StarRing α] (qr hf : Mat α) : Mat α :=
  let n := qr.ncols
  let b := hf.nrows
  let nblocks := (n + b - 1) / b
  (List.range nblocks).foldl
    (fun acc k => matMul acc (blockReflector qr hf (k * b) (min b (n - k * b))))
    (identityMat qr.nrows)

/-- Modelled from the spec:
`faer_core::householder::apply_block_householder_sequence_transpose_on_the_right_in_place`
(outside the source unit) — mutates `target := target · (sequence)ᵀ`, with the
sequence conjugated per `cseq` (so `cseq = yes` gives `target · Qᴴ`) and the
target's own entries conjugated per `ctgt`. -/
def apply_block_householder_sequence_transpose_on_the_right_in_place
    {α : Type} [Field α] [StarRing α] (qr hf : Mat α) (cseq : Conj)
    (target : Mat α) (ctgt : Conj) (par : Parallelism) : Mat α :=
  matMul (condConj ctgt target) (transposeMat (condConj cseq (encodedQ qr hf)))

/-- The panic sites reachable from the orchestrators. -/
inductive PanicKind where
  | qrNotSquare
  | dstShapeMismatch
  | householderFactorCols
  | zeroBlocksize
  | permDimMismatch
deriving DecidableEq, Repr

/-- Row permutation of a matrix view by a permutation's forward mapping. -/
def permute_rows_applied {α : Type} (A : Mat α) (p : PermutationRef) : Mat α :=
  ⟨A.nrows, A.ncols, fun i j => A.entry (p.forward.getD i i) j⟩

/-- Modelled from the spec: `faer_core::permutation::permute_rows_in_place`
(outside the source unit) — reorders the rows of the target by the given
permutation; its dimension must match the target's row count (the primitive's
panic on a mismatch is modelled as an error value). -/
def permute_rows_in_place {α : Type} (A : Mat α) (p : PermutationRef) :
    Except PanicKind (Mat α) :=
  if p.len = A.nrows then .ok (permute_rows_applied A p)
  else .error .permDimMismatch

/-! ### The orchestrators -/

/-- The primitive invocations the out-of-place orchestrator performs, with
their conjugation flags, in order. -/
inductive Event where
  | triangularInverse (c : Conj)
  | zeroLowerTriangle
  | applyHouseholderTransposeRight (cseq ctgt : Conj)
  | permuteRowsByInverse
deriving DecidableEq, Repr

/-- Embedding of `invert` from the source. The asserts run in source order
before any mutation; a failure returns the panic site together with the
contents of `dst` at that moment. Success returns the final `dst` and the
trace of primitive invocations. The scratch argument is elided: carving
cannot affect entry values (its sizing is handled separately). -/
def invertSteps123 {α : Type} [Field α] [StarRing α]
    (dst qr_factors householder_factor : Mat α) (parallelism : Parallelism) :
    Mat α :=
  apply_block_householder_sequence_transpose_on_the_right_in_place
    qr_factors householder_factor Conj.yes
    (zero_lower_strict (invert_upper_triangular dst qr_factors Conj.no parallelism))
    Conj.no parallelism

def invert {α : Type} [Field α] [StarRing α]
    (dst qr_factors householder_factor : Mat α) (col_perm : PermutationRef)
    (parallelism : Parallelism) :
    Except (PanicKind × Mat α) (Mat α × List Event) :=
  if qr_factors.nrows ≠ qr_factors.ncols then
    .error (.qrNotSquare, dst)
  else if ¬(dst.nrows = qr_factors.nrows ∧ dst.ncols = qr_factors.ncols) then
    .error (.dstShapeMismatch, dst)
  else if householder_factor.ncols ≠ min qr_factors.nrows qr_factors.ncols then
    .error (.householderFactorCols, dst)
  else if ¬(0 < householder_factor.nrows) then
    .error (.zeroBlocksize, dst)
  else
    match permute_rows_in_place
        (invertSteps123 dst qr_factors householder_factor parallelism)
        col_perm.inverse with
    | .error k =>
        .error (k, invertSteps123 dst qr_factors householder_factor parallelism)
    | .ok d4 => .ok (d4,
        [.triangularInverse .no, .zeroLowerTriangle,
         .applyHouseholderTransposeRight .yes .no, .permuteRowsByInverse])

/-- The value `invert` writes into `dst` on the success path. -/
def invertResult {α : Type} [Field α] [StarRing α]
    (dst qr_factors householder_factor : Mat α) (col_perm : PermutationRef)
    (parallelism : Parallelism) : Mat α :=
  permute_rows_applied
    (invertSteps123 dst qr_factors householder_factor parallelism)
    col_perm.inverse

/-- The trace of the four steps, in source order, with source flags. -/
def invertTrace : List Event :=
  [.triangularInverse .no, .zeroLowerTriangle,
   .applyHouseholderTransposeRight .yes .no, .permuteRowsByInverse]

/-- Embedding of `invert_in_place` from the source: carve an
nrows×ncols temporary (its unspecified initial contents supplied by `uninit`),
delegate to `invert`, and copy the temporary back entry by entry. -/
def invert_in_place {α : Type} [Field α] [StarRing α]
    (qr_factors householder_factor : Mat α) (col_perm : PermutationRef)
    (parallelism : Parallelism) (uninit : Nat → Nat → α) :
    Except (PanicKind × Mat α) (Mat α × List Event) :=
  match invert (⟨qr_factors.nrows, qr_factors.ncols, uninit⟩ : Mat α)
      qr_factors householder_factor col_perm parallelism with
  | .error (k, _) => .error (k, qr_factors)
  | .ok (d, tr) =>
      .ok (⟨qr_factors.nrows, qr_factors.ncols, fun i j =>
        if i < qr_factors.nrows ∧ j < qr_factors.ncols then d.entry i j
        else qr_factors.entry i j⟩, tr)

/-- Panic site of a finished call, when it failed. -/
def panicOf {α : Type} (r : Except (PanicKind × Mat α) (Mat α × List Event)) :
    Option PanicKind :=
  match r with
  | .error (k, _) => some k
  | .ok _ => none

/-- An entry of the destination as it stood when the call failed. -/
def failDstEntry {α : Type} (r : Except (PanicKind × Mat α) (Mat α × List Event))
    (i j : Nat) : Option α :=
  match r with
  | .error (_, A) => some (A.entry i j)
  | .ok _ => none

/-- Forward mapping of a permutation, as a total function. -/
def permFwd (p : PermutationRef) (i : Nat) : Nat := p.forward.getD i i

/-- Inverse mapping of a permutation, as a total function. -/
def permInv (p : PermutationRef) (i : Nat) : Nat := p.inv.getD i i

/-! ### Concrete 1×1 instances over ℚ used by the witnesses -/

/-- 1×1 factor matrix `[[1]]`. -/
def cQr : Mat ℚ := ⟨1, 1, fun _ _ => 1⟩

/-- 1×1 Householder factor `[[0]]` (τ = 0, so the encoded Q is the identity). -/
def cHf0 : Mat ℚ := ⟨1, 1, fun _ _ => 0⟩

/-- 1×1 Householder factor `[[2]]` (τ = 2, so the encoded Q is `[[-1]]`). -/
def cHf2 : Mat ℚ := ⟨1, 1, fun _ _ => 2⟩

/-- 1×1 destination `[[5]]`. -/
def cDst : Mat ℚ := ⟨1, 1, fun _ _ => 5⟩

/-- The identity permutation of dimension 1. -/
def cPerm1 : PermutationRef := ⟨[0], [0]⟩

/-- The identity permutation of dimension 2 (wrong dimension for `cQr`). -/
def cPerm2 : PermutationRef := ⟨[0, 1], [0, 1]⟩

/-! ### Characterization lemmas for the requirement algebra -/

theorem temp_mat_req_ok_of {szT alT m n : Nat} (h1 : m * n ≤ USIZE_MAX)
    (h2 : m * n * szT ≤ USIZE_MAX) :
    temp_mat_req szT alT m n = .ok ⟨m * n * szT, alT⟩ := by
  unfold temp_mat_req checkedMul
  simp only [h1, if_pos, bind, Except.bind, h2]

theorem temp_mat_req_ok_elim {szT alT m n : Nat} {r : StackReq}
    (h : temp_mat_req szT alT m n = .ok r) :
    r = ⟨m * n * szT, alT⟩ ∧ m * n ≤ USIZE_MAX ∧ m * n * szT ≤ USIZE_MAX := by
  unfold temp_mat_req checkedMul at h
  by_cases h1 : m * n ≤ USIZE_MAX
  · simp only [h1, if_pos, bind, Except.bind] at h
    by_cases h2 : m * n * szT ≤ USIZE_MAX
    · simp only [h2, if_pos] at h
      cases h
      exact ⟨rfl, h1, h2⟩
    · simp only [h2, if_neg, reduceIte] at h
      exact Except.noConfusion h
  · simp only [h1, if_neg, reduceIte, bind, Except.bind] at h
    exact Except.noConfusion h

theorem temp_mat_req_error_of {szT alT m n : Nat}
    (h : ¬(m * n ≤ USIZE_MAX ∧ m * n * szT ≤ USIZE_MAX)) :
    temp_mat_req szT alT m n = .error .sizeOverflow := by
  unfold temp_mat_req checkedMul
  by_cases h1 : m * n ≤ USIZE_MAX
  · by_cases h2 : m * n * szT ≤ USIZE_MAX
    · exact absurd ⟨h1, h2⟩ h
    · simp only [h1, if_pos, bind, Except.bind, h2, if_neg, reduceIte]
  · simp only [h1, if_neg, reduceIte, bind, Except.bind]

theorem tryAnyOf_pair (a b : StackReq) :
    StackReq.tryAnyOf [a, b] =
      .ok ⟨max a.size b.size, max (max 1 a.align) b.align⟩ := by
  simp only [StackReq.tryAnyOf, List.foldl, StackReq.or, Nat.zero_max]

theorem tryAllOf_pair_ok {a b : StackReq} (h : a.size + b.size ≤ USIZE_MAX) :
    StackReq.tryAllOf [a, b] =
      .ok ⟨a.size + b.size, max (max 1 a.align) b.align⟩ := by
  have ha : a.size ≤ USIZE_MAX := by omega
  simp only [StackReq.tryAllOf, List.foldlM, StackReq.tryAnd, checkedAdd, bind,
    Except.bind, Nat.zero_add, ha, if_pos, h, pure, Except.pure]

theorem tryAllOf_pair_elim {a b c : StackReq}
    (h : StackReq.tryAllOf [a, b] = .ok c) :
    c.size = a.size + b.size ∧ a.size + b.size ≤ USIZE_MAX := by
  by_cases h1 : a.size ≤ USIZE_MAX
  · by_cases h2 : a.size + b.size ≤ USIZE_MAX
    · rw [tryAllOf_pair_ok h2] at h
      cases h
      exact ⟨rfl, h2⟩
    · simp only [StackReq.tryAllOf, List.foldlM, StackReq.tryAnd, checkedAdd, bind,
        Except.bind, Nat.zero_add, h1, if_pos, h2, if_neg, reduceIte] at h
      exact Except.noConfusion h
  · simp only [StackReq.tryAllOf, List.foldlM, StackReq.tryAnd, checkedAdd, bind,
      Except.bind, Nat.zero_add, h1, if_neg, reduceIte] at h
    exact Except.noConfusion h

/-! ### Claim theorems about the requirement algebra -/

/-- C3: for all dimensions n, block size and policy whose component
requirements are computable, `invert_req` is exactly the either-or (max)
composition of the blocksize×n temporary-matrix requirement and the
permutation scratch requirement for n rows of an n×n matrix — its size is the
max of the component sizes, strictly below their sum whenever both are
positive. -/
theorem invert_req_is_max_composition (szT alT n bs : Nat) (par : Parallelism)
    (r1 r2 : StackReq)
    (h1 : temp_mat_req szT alT bs n = .ok r1)
    (h2 : permute_cols_in_place_req szT alT n n = .ok r2) :
    invert_req szT alT n n bs par = StackReq.tryAnyOf [r1, r2] ∧
    ∃ r, invert_req szT alT n n bs par = .ok r ∧
      r.size = max r1.size r2.size ∧
      (0 < r1.size → 0 < r2.size → r.size < r1.size + r2.size) := by
  have he : invert_req szT alT n n bs par = StackReq.tryAnyOf [r1, r2] := by
    unfold invert_req
    rw [h1]
    simp only [bind, Except.bind]
    rw [h2]
  refine ⟨he, ⟨max r1.size r2.size, max (max 1 r1.align) r2.align⟩, ?_, rfl, ?_⟩
  · rw [he, tryAnyOf_pair]
  · intro hp1 hp2
    show max r1.size r2.size < r1.size + r2.size
    omega

/-- C3 witness at concrete input. -/
theorem invert_req_is_max_composition_witness :
    temp_mat_req 8 8 2 4 = .ok ⟨64, 8⟩ ∧
    permute_cols_in_place_req 8 8 4 4 = .ok ⟨128, 8⟩ ∧
    invert_req 8 8 4 4 2 Parallelism.none = StackReq.tryAnyOf [⟨64, 8⟩, ⟨128, 8⟩] ∧
    ∃ r, invert_req 8 8 4 4 2 Parallelism.none = .ok r ∧
      r.size = max 64 128 ∧ (0 < 64 → 0 < 128 → r.size < 64 + 128) := by
  have h1 : temp_mat_req 8 8 2 4 = .ok ⟨64, 8⟩ := rfl
  have h2 : permute_cols_in_place_req 8 8 4 4 = .ok ⟨128, 8⟩ := rfl
  have h := invert_req_is_max_composition 8 8 4 2 Parallelism.none ⟨64, 8⟩ ⟨128, 8⟩ h1 h2
  exact ⟨h1, h2, h.1, h.2⟩

/-! ### Helper lemmas for the orchestrators -/

theorem conj_app_no {α : Type} [Star α] (x : α) : Conj.app Conj.no x = x := rfl

theorem invert_ok_of {α : Type} [Field α] [StarRing α]
    {dst qr hf : Mat α} {p : PermutationRef} {par : Parallelism}
    (h1 : qr.nrows = qr.ncols)
    (h2 : dst.nrows = qr.nrows) (h3 : dst.ncols = qr.ncols)
    (h4 : hf.ncols = min qr.nrows qr.ncols) (h5 : 0 < hf.nrows)
    (h6 : p.inv.length = qr.nrows) :
    invert dst qr hf p par = .ok (invertResult dst qr hf p par, invertTrace) := by
  have hperm : PermutationRef.len p.inverse =
      (invertSteps123 dst qr hf par).nrows := by
    show p.inv.length = dst.nrows
    omega
  unfold invert permute_rows_in_place
  rw [if_neg (by omega), if_neg (by push_neg; omega), if_neg (by omega),
    if_neg (by omega), if_pos hperm]
  rfl

theorem invert_error_entry {α : Type} [Field α] [StarRing α]
    {dst qr hf : Mat α} {p : PermutationRef} {par : Parallelism}
    (h1 : qr.nrows = qr.ncols)
    (h2 : dst.nrows = qr.nrows) (h3 : dst.ncols = qr.ncols)
    (h4 : hf.ncols = min qr.nrows qr.ncols) (h5 : 0 < hf.nrows)
    (h6 : p.inv.length ≠ dst.nrows) :
    invert dst qr hf p par =
      .error (.permDimMismatch, invertSteps123 dst qr hf par) := by
  have hperm : ¬(PermutationRef.len p.inverse =
      (invertSteps123 dst qr hf par).nrows) := by
    show ¬(p.inv.length = dst.nrows)
    exact h6
  unfold invert permute_rows_in_place
  rw [if_neg (by omega), if_neg (by push_neg; omega), if_neg (by omega),
    if_neg (by omega), if_neg hperm]

theorem foldl_matMul_nrows {α : Type} [Field α] (g : Nat → Mat α)
    (l : List Nat) (A : Mat α) :
    (l.foldl (fun acc k => matMul acc (g k)) A).nrows = A.nrows := by
  induction l generalizing A with
  | nil => rfl
  | cons x xs ih => exact (ih (matMul A (g x))).trans rfl

theorem encodedQ_nrows {α : Type} [Field α] [StarRing α] (qr hf : Mat α) :
    (encodedQ qr hf).nrows = qr.nrows := by
  show (List.foldl _ (identityMat qr.nrows) _).nrows = qr.nrows
  exact foldl_matMul_nrows _ _ _

theorem invertSteps12_entry {α : Type} [Field α] [StarRing α]
    (dst qr : Mat α) (par : Parallelism)
    (hr : dst.nrows = qr.nrows) (hc : dst.ncols = qr.ncols)
    (i j : Nat) (hi : i < qr.nrows) (hj : j < qr.ncols) :
    (zero_lower_strict (invert_upper_triangular dst qr Conj.no par)).entry i j =
      if i ≤ j then triInvEntry qr.entry i j else 0 := by
  show (if j < i ∧ i < dst.nrows ∧ j < dst.ncols then 0
      else (invert_upper_triangular dst qr Conj.no par).entry i j) = _
  by_cases hij : j < i
  · rw [if_pos (by omega), if_neg (by omega)]
  · rw [if_neg (by omega)]
    show (if i ≤ j ∧ i < dst.nrows ∧ j < dst.ncols then
        triInvEntry (fun a b => Conj.app Conj.no (qr.entry a b)) i j
      else dst.entry i j) = _
    rw [if_pos (by omega), if_pos (by omega)]
    rfl

theorem invertSteps123_entry {α : Type} [Field α] [StarRing α]
    (dst qr hf : Mat α) (par : Parallelism)
    (hr : dst.nrows = qr.nrows) (hc : dst.ncols = qr.ncols)
    (r j : Nat) (hrn : r < qr.nrows) :
    (invertSteps123 dst qr hf par).entry r j =
      ∑ k ∈ Finset.range qr.ncols,
        (if r ≤ k then triInvEntry qr.entry r k else 0) *
          (transposeMat (conjMat (encodedQ qr hf))).entry k j := by
  show ∑ k ∈ Finset.range
      (zero_lower_strict (invert_upper_triangular dst qr Conj.no par)).ncols,
      (zero_lower_strict (invert_upper_triangular dst qr Conj.no par)).entry r k *
        (transposeMat (conjMat (encodedQ qr hf))).entry k j = _
  show ∑ k ∈ Finset.range dst.ncols, _ = _
  rw [hc]
  refine Finset.sum_congr rfl fun k hk => ?_
  rw [invertSteps12_entry dst qr par hr hc r k hrn (Finset.mem_range.mp hk)]

theorem invertResult_entry_indep {α : Type} [Field α] [StarRing α]
    (dstA dstB qr hf : Mat α) (p : PermutationRef) (par : Parallelism)
    (hA : dstA.nrows = qr.nrows) (hA' : dstA.ncols = qr.ncols)
    (hB : dstB.nrows = qr.nrows) (hB' : dstB.ncols = qr.ncols)
    (h6 : p.inv.length = qr.nrows) (h7 : ∀ x ∈ p.inv, x < qr.nrows) :
    ∀ i, i < qr.nrows → ∀ j,
      (invertResult dstA qr hf p par).entry i j =
        (invertResult dstB qr hf p par).entry i j := by
  intro i hi j
  have hlen : i < p.inv.length := by omega
  have hg : p.inv.getD i i = p.inv.get ⟨i, hlen⟩ := List.getD_eq_get p.inv i hlen
  have hr : p.inv.getD i i < qr.nrows := by
    rw [hg]
    exact h7 _ (List.get_mem p.inv i hlen)
  show (invertSteps123 dstA qr hf par).entry (p.inv.getD i i) j =
    (invertSteps123 dstB qr hf par).entry (p.inv.getD i i) j
  rw [invertSteps123_entry dstA qr hf par hA hA' _ j hr,
    invertSteps123_entry dstB qr hf par hB hB' _ j hr]

theorem triInvFuel_congr {α : Type} [Field α] (f : Nat → Nat → α) :
    ∀ F1 F2 i j, j - i < F1 → j - i < F2 →
      triInvFuel f F1 i j = triInvFuel f F2 i j := by
  intro F1
  induction F1 with
  | zero => intro F2 i j h1; omega
  | succ G1 ih =>
    intro F2 i j h1 h2
    cases F2 with
    | zero => omega
    | succ G2 =>
      simp only [triInvFuel]
      by_cases hij : i = j
      · rw [if_pos hij, if_pos hij]
      · rw [if_neg hij, if_neg hij]
        congr 1
        refine Finset.sum_congr rfl fun k hk => ?_
        have hm := Finset.mem_Ico.mp hk
        rw [ih G2 i k (by omega) (by omega)]

theorem triInvEntry_diag {α : Type} [Field α] (f : Nat → Nat → α) (j : Nat) :
    triInvEntry f j j = (f j j)⁻¹ := by
  show triInvFuel f (j - j + 1) j j = _
  simp [triInvFuel]

theorem triInvEntry_lt {α : Type} [Field α] (f : Nat → Nat → α) (i j : Nat)
    (hij : i < j) :
    triInvEntry f i j =
      (∑ k ∈ Finset.Ico i j, triInvEntry f i k * f k j) * (-(f j j)⁻¹) := by
  show triInvFuel f (j - i + 1) i j = _
  simp only [triInvFuel]
  rw [if_neg (by omega)]
  congr 1
  refine Finset.sum_congr rfl fun k hk => ?_
  have hm := Finset.mem_Ico.mp hk
  rw [triInvFuel_congr f (j - i) (k - i + 1) i k (by omega) (by omega)]
  rfl

/-- Back-substitution correctness: the entries produced by `triInvEntry`,
restricted to the upper triangle, form a left inverse of the upper triangle of
`qr` whenever the diagonal is nonzero. -/
theorem triInv_mul_upper {α : Type} [Field α] (qr : Mat α)
    (hd : ∀ j, j < qr.nrows → qr.entry j j ≠ 0) (i j : Nat)
    (hi : i < qr.nrows) (hj : j < qr.nrows) :
    (∑ k ∈ Finset.range qr.nrows,
      (if i ≤ k then triInvEntry qr.entry i k else 0) *
        (if k ≤ j then qr.entry k j else 0)) = if i = j then (1 : α) else 0 := by
  rcases lt_trichotomy i j with hij | hij | hij
  · rw [if_neg (by omega)]
    have hsub : Finset.Ico i (j + 1) ⊆ Finset.range qr.nrows := by
      intro k hk
      have := Finset.mem_Ico.mp hk
      exact Finset.mem_range.mpr (by omega)
    have hzero : ∀ k ∈ Finset.range qr.nrows, k ∉ Finset.Ico i (j + 1) →
        (if i ≤ k then triInvEntry qr.entry i k else 0) *
          (if k ≤ j then qr.entry k j else 0) = 0 := by
      intro k _ hk
      rw [Finset.mem_Ico] at hk
      push_neg at hk
      by_cases h1 : i ≤ k
      · rw [if_pos h1, if_neg (by omega), mul_zero]
      · rw [if_neg h1, zero_mul]
    rw [← Finset.sum_subset hsub hzero,
      Finset.sum_Ico_succ_top (by omega : i ≤ j)]
    have hIco : ∀ k ∈ Finset.Ico i j,
        (if i ≤ k then triInvEntry qr.entry i k else 0) *
          (if k ≤ j then qr.entry k j else 0) =
        triInvEntry qr.entry i k * qr.entry k j := by
      intro k hk
      have := Finset.mem_Ico.mp hk
      rw [if_pos (by omega), if_pos (by omega)]
    rw [Finset.sum_congr rfl hIco, if_pos (le_of_lt hij), if_pos (le_refl j),
      triInvEntry_lt qr.entry i j hij]
    have hinv : (qr.entry j j)⁻¹ * qr.entry j j = 1 :=
      inv_mul_cancel₀ (hd j hj)
    set S := ∑ k ∈ Finset.Ico i j, triInvEntry qr.entry i k * qr.entry k j with hS
    calc S + S * (-(qr.entry j j)⁻¹) * qr.entry j j
        = S - S * ((qr.entry j j)⁻¹ * qr.entry j j) := by ring
      _ = S - S * 1 := by rw [hinv]
      _ = 0 := by ring
  · subst hij
    rw [if_pos rfl]
    rw [Finset.sum_eq_single i]
    · rw [if_pos (le_refl i), if_pos (le_refl i), triInvEntry_diag]
      exact inv_mul_cancel₀ (hd i hi)
    · intro k _ hk
      by_cases h1 : i ≤ k
      · rw [if_pos h1, if_neg (by omega), mul_zero]
      · rw [if_neg h1, zero_mul]
    · intro hmem
      exact absurd (Finset.mem_range.mpr hi) hmem
  · rw [if_neg (by omega)]
    refine Finset.sum_eq_zero fun k _ => ?_
    by_cases h1 : i ≤ k
    · rw [if_pos h1, if_neg (by omega), mul_zero]
    · rw [if_neg h1, zero_mul]

theorem invertResult_entry {α : Type} [Field α] [StarRing α]
    (dst0 qr hf : Mat α) (p : PermutationRef) (par : Parallelism)
    (h1 : qr.nrows = qr.ncols) (h2 : dst0.nrows = qr.nrows)
    (h3 : dst0.ncols = qr.ncols) (i t : Nat) (hri : permInv p i < qr.nrows) :
    (invertResult dst0 qr hf p par).entry i t =
      ∑ k ∈ Finset.range qr.nrows,
        (if permInv p i ≤ k then triInvEntry qr.entry (permInv p i) k else 0) *
          star ((encodedQ qr hf).entry t k) := by
  show (invertSteps123 dst0 qr hf par).entry (permInv p i) t = _
  rw [invertSteps123_entry dst0 qr hf par h2 h3 _ t hri, ← h1]
  exact Finset.sum_congr rfl fun k _ => rfl

/-- Orthogonality transport: multiplying a row combination of conjugated
columns of an orthonormal family against the family collapses the double sum
to a single one. -/
theorem sum_mul_rearrange {α : Type} [Field α] [StarRing α] (n : Nat)
    (f g : Nat → α) (Q : Nat → Nat → α)
    (hQ : ∀ k m, k < n → m < n →
      (∑ t ∈ Finset.range n, star (Q t k) * Q t m) = if k = m then (1 : α) else 0) :
    (∑ t ∈ Finset.range n, (∑ k ∈ Finset.range n, f k * star (Q t k)) *
      (∑ m ∈ Finset.range n, Q t m * g m)) =
    ∑ k ∈ Finset.range n, f k * g k := by
  calc ∑ t ∈ Finset.range n, (∑ k ∈ Finset.range n, f k * star (Q t k)) *
        (∑ m ∈ Finset.range n, Q t m * g m)
      = ∑ t ∈ Finset.range n, ∑ k ∈ Finset.range n, ∑ m ∈ Finset.range n,
          (f k * star (Q t k)) * (Q t m * g m) := by
        refine Finset.sum_congr rfl fun t _ => ?_
        rw [Finset.sum_mul]
        refine Finset.sum_congr rfl fun k _ => ?_
        rw [Finset.mul_sum]
    _ = ∑ k ∈ Finset.range n, ∑ t ∈ Finset.range n, ∑ m ∈ Finset.range n,
          (f k * star (Q t k)) * (Q t m * g m) := Finset.sum_comm
    _ = ∑ k ∈ Finset.range n, ∑ m ∈ Finset.range n, ∑ t ∈ Finset.range n,
          (f k * star (Q t k)) * (Q t m * g m) := by
        refine Finset.sum_congr rfl fun k _ => ?_
        exact Finset.sum_comm
    _ = ∑ k ∈ Finset.range n, ∑ m ∈ Finset.range n,
          (f k * g m) * ∑ t ∈ Finset.range n, star (Q t k) * Q t m := by
        refine Finset.sum_congr rfl fun k _ => Finset.sum_congr rfl fun m _ => ?_
        rw [Finset.mul_sum]
        refine Finset.sum_congr rfl fun t _ => ?_
        ring
    _ = ∑ k ∈ Finset.range n, ∑ m ∈ Finset.range n,
          (f k * g m) * (if k = m then 1 else 0) := by
        refine Finset.sum_congr rfl fun k hk => Finset.sum_congr rfl fun m hm => ?_
        rw [hQ k m (Finset.mem_range.mp hk) (Finset.mem_range.mp hm)]
    _ = ∑ k ∈ Finset.range n, f k * g k := by
        refine Finset.sum_congr rfl fun k hk => ?_
        simp only [mul_ite, mul_one, mul_zero]
        rw [Finset.sum_ite_eq (Finset.range n) k (fun m => f k * g m),
          if_pos hk]

/-! ### Claim theorems about the orchestrators -/

/-- C1: under the preconditions (square n×n `qr_factors`, `householder_factor`
with n columns and at least one row, `col_perm` of dimension n, conforming
`dst`), `invert` succeeds and performs exactly the four steps in order:
triangular inversion of the upper triangle with no conjugation, zeroing of the
strict lower triangle, right-multiplication by the conjugate-transposed block
Householder sequence (conjugate flag on the sequence, none on `dst`), and row
permutation by the inverse of `col_perm` — both the resulting value and the
recorded trace of primitive invocations say so. -/
theorem invert_four_steps_in_order {α : Type} [Field α] [StarRing α]
    (dst qr hf : Mat α) (p : PermutationRef) (par : Parallelism)
    (h1 : qr.nrows = qr.ncols)
    (h2 : dst.nrows = qr.nrows) (h3 : dst.ncols = qr.ncols)
    (h4 : hf.ncols = min qr.nrows qr.ncols) (h5 : 0 < hf.nrows)
    (h6 : p.forward.length = qr.nrows) (h6' : p.inv.length = qr.nrows) :
    invert dst qr hf p par =
      .ok (permute_rows_applied
            (apply_block_householder_sequence_transpose_on_the_right_in_place
              qr hf Conj.yes
              (zero_lower_strict (invert_upper_triangular dst qr Conj.no par))
              Conj.no par)
            p.inverse,
          [Event.triangularInverse Conj.no, Event.zeroLowerTriangle,
           Event.applyHouseholderTransposeRight Conj.yes Conj.no,
           Event.permuteRowsByInverse]) :=
  invert_ok_of h1 h2 h3 h4 h5 h6'

/-- C1 witness: the theorem applied at a concrete 1×1 input over ℚ. -/
theorem invert_four_steps_in_order_witness :
    invert cDst cQr cHf0 cPerm1 Parallelism.none =
      .ok (permute_rows_applied
            (apply_block_householder_sequence_transpose_on_the_right_in_place
              cQr cHf0 Conj.yes
              (zero_lower_strict (invert_upper_triangular cDst cQr Conj.no
                Parallelism.none))
              Conj.no Parallelism.none)
            cPerm1.inverse,
          [Event.triangularInverse Conj.no, Event.zeroLowerTriangle,
           Event.applyHouseholderTransposeRight Conj.yes Conj.no,
           Event.permuteRowsByInverse]) :=
  invert_four_steps_in_order cDst cQr cHf0 cPerm1 Parallelism.none
    (by decide) (by decide) (by decide) (by decide) (by decide)
    (by decide) (by decide)

/-- C2 (amended): the four entry-checked preconditions — square `qr_factors`,
conforming `dst`, `householder_factor` column count, nonzero block size — are
checked synchronously at entry, in source order, and a violation fails the
call with `dst` completely unmutated (the failure carries `dst` itself). A
`col_perm` dimension mismatch also fails the call, but only at the final
permutation step, after steps 1–3 have already run over `dst`. -/
theorem invert_entry_check_rejects {α : Type} [Field α] [StarRing α]
    (dst qr hf : Mat α) (p : PermutationRef) (par : Parallelism) :
    (qr.nrows ≠ qr.ncols →
      invert dst qr hf p par = .error (.qrNotSquare, dst)) ∧
    (qr.nrows = qr.ncols → ¬(dst.nrows = qr.nrows ∧ dst.ncols = qr.ncols) →
      invert dst qr hf p par = .error (.dstShapeMismatch, dst)) ∧
    (qr.nrows = qr.ncols → dst.nrows = qr.nrows → dst.ncols = qr.ncols →
      hf.ncols ≠ min qr.nrows qr.ncols →
      invert dst qr hf p par = .error (.householderFactorCols, dst)) ∧
    (qr.nrows = qr.ncols → dst.nrows = qr.nrows → dst.ncols = qr.ncols →
      hf.ncols = min qr.nrows qr.ncols → hf.nrows = 0 →
      invert dst qr hf p par = .error (.zeroBlocksize, dst)) ∧
    (qr.nrows = qr.ncols → dst.nrows = qr.nrows → dst.ncols = qr.ncols →
      hf.ncols = min qr.nrows qr.ncols → 0 < hf.nrows →
      p.inv.length ≠ qr.nrows →
      invert dst qr hf p par =
        .error (.permDimMismatch, invertSteps123 dst qr hf par)) := by
  refine ⟨?_, ?_, ?_, ?_, ?_⟩
  · intro hv
    unfold invert
    rw [if_pos hv]
  · intro h1 hv
    unfold invert
    rw [if_neg (by omega), if_pos hv]
  · intro h1 h2 h3 hv
    unfold invert
    rw [if_neg (by omega), if_neg (by push_neg; omega), if_pos hv]
  · intro h1 h2 h3 h4 hv
    unfold invert
    rw [if_neg (by omega), if_neg (by push_neg; omega), if_neg (by omega),
      if_pos (by omega)]
  · intro h1 h2 h3 h4 h5 hv
    exact invert_error_entry h1 h2 h3 h4 h5 (by omega)

/-- C2 witness: the first entry check applied at a concrete non-square input
rejects with `dst` untouched. -/
theorem invert_entry_check_rejects_witness :
    invert cDst (⟨1, 2, fun _ _ => 1⟩ : Mat ℚ) cHf0 cPerm1 Parallelism.none =
      .error (.qrNotSquare, cDst) :=
  (invert_entry_check_rejects cDst ⟨1, 2, fun _ _ => 1⟩ cHf0 cPerm1
    Parallelism.none).1 (by decide)

/-- C2 counterexample: a `col_perm` of the wrong dimension (2 instead of 1) is
not rejected at entry — the call does fail, but only after the destination was
already mutated by steps 1–3: entry (0,0) of the 1×1 destination held 5 on
entry and holds 1 when the failure is raised. -/
theorem invert_perm_dim_mismatch_mutates_dst :
    panicOf (invert cDst cQr cHf0 cPerm2 Parallelism.none) =
      some PanicKind.permDimMismatch ∧
    failDstEntry (invert cDst cQr cHf0 cPerm2 Parallelism.none) 0 0 =
      some (1 : ℚ) ∧
    cDst.entry 0 0 = (5 : ℚ) ∧ (1 : ℚ) ≠ 5 := by
  have he : invert cDst cQr cHf0 cPerm2 Parallelism.none =
      .error (.permDimMismatch, invertSteps123 cDst cQr cHf0 Parallelism.none) :=
    invert_error_entry (by decide) (by decide) (by decide) (by decide)
      (by decide) (by decide)
  refine ⟨by rw [he]; rfl, ?_, rfl, by norm_num⟩
  rw [he]
  show some ((invertSteps123 cDst cQr cHf0 Parallelism.none).entry 0 0) = _
  simp [invertSteps123,
    apply_block_householder_sequence_transpose_on_the_right_in_place, condConj,
    matMul, transposeMat, conjMat, ctransposeMat, matSub, identityMat,
    zero_lower_strict, invert_upper_triangular, triInvEntry, triInvFuel,
    encodedQ, blockReflector, blockV, blockT, permute_rows_applied,
    Conj.app, cQr, cHf0, cDst, Finset.sum_range_succ, List.range_succ, List.range_zero,
    List.foldl]

/-- C7: for every factorization input satisfying the preconditions, the matrix
`invert_in_place` leaves stored in the `qr_factors` storage is equal, entry
for entry, to the matrix `invert` writes into a separate destination from the
same inputs — whatever the initial contents of the separate destination and of
the carved temporary. -/
theorem invert_in_place_matches_invert {α : Type} [Field α] [StarRing α]
    (dst0 qr hf : Mat α) (p : PermutationRef) (par : Parallelism)
    (uninit : Nat → Nat → α)
    (h1 : qr.nrows = qr.ncols)
    (h2 : dst0.nrows = qr.nrows) (h3 : dst0.ncols = qr.ncols)
    (h4 : hf.ncols = min qr.nrows qr.ncols) (h5 : 0 < hf.nrows)
    (h6 : p.forward.length = qr.nrows) (h6' : p.inv.length = qr.nrows)
    (h7 : ∀ x ∈ p.inv, x < qr.nrows) :
    ∃ M, invert dst0 qr hf p par = .ok (invertResult dst0 qr hf p par, invertTrace) ∧
      invert_in_place qr hf p par uninit = .ok (M, invertTrace) ∧
      M.EqOn (invertResult dst0 qr hf p par) := by
  have hout : invert dst0 qr hf p par =
      .ok (invertResult dst0 qr hf p par, invertTrace) :=
    invert_ok_of h1 h2 h3 h4 h5 h6'
  have htmp : invert (⟨qr.nrows, qr.ncols, uninit⟩ : Mat α) qr hf p par =
      .ok (invertResult ⟨qr.nrows, qr.ncols, uninit⟩ qr hf p par, invertTrace) :=
    invert_ok_of h1 rfl rfl h4 h5 h6'
  refine ⟨⟨qr.nrows, qr.ncols, fun i j =>
      if i < qr.nrows ∧ j < qr.ncols then
        (invertResult ⟨qr.nrows, qr.ncols, uninit⟩ qr hf p par).entry i j
      else qr.entry i j⟩, hout, ?_, ?_, ?_, ?_⟩
  · unfold invert_in_place
    rw [htmp]
  · show qr.nrows = (invertSteps123 dst0 qr hf par).nrows
    exact h2.symm
  · show qr.ncols = (transposeMat (condConj Conj.yes (encodedQ qr hf))).ncols
    show qr.ncols = (encodedQ qr hf).nrows
    rw [encodedQ_nrows]
    omega
  · intro i hi j hj
    show (if i < qr.nrows ∧ j < qr.ncols then
        (invertResult ⟨qr.nrows, qr.ncols, uninit⟩ qr hf p par).entry i j
      else qr.entry i j) = _
    rw [if_pos ⟨hi, hj⟩]
    exact invertResult_entry_indep ⟨qr.nrows, qr.ncols, uninit⟩ dst0 qr hf p par
      rfl rfl h2 h3 h6' h7 i hi j

/-- C7 witness: the theorem applied at a concrete 1×1 input over ℚ, with a
nonzero garbage value in the carved temporary. -/
theorem invert_in_place_matches_invert_witness :
    ∃ M, invert cDst cQr cHf0 cPerm1 Parallelism.none =
        .ok (invertResult cDst cQr cHf0 cPerm1 Parallelism.none, invertTrace) ∧
      invert_in_place cQr cHf0 cPerm1 Parallelism.none (fun _ _ => (9 : ℚ)) =
        .ok (M, invertTrace) ∧
      M.EqOn (invertResult cDst cQr cHf0 cPerm1 Parallelism.none) :=
  invert_in_place_matches_invert cDst cQr cHf0 cPerm1 Parallelism.none
    (fun _ _ => (9 : ℚ)) (by decide) (by decide) (by decide) (by decide)
    (by decide) (by decide) (by decide) (by decide)

/-- C4: for all dimensions n, block size and policy whose component
requirements are computable, `invert_in_place_req` is exactly the
sequential/concurrent (sum) composition of a full n×n temporary-matrix
requirement and `invert_req` for the same arguments — when the sum fits, its
size is the sum of the two component sizes. -/
theorem invert_in_place_req_is_sum_composition (szT alT n bs : Nat)
    (par : Parallelism) (r1 r2 : StackReq)
    (h1 : temp_mat_req szT alT n n = .ok r1)
    (h2 : invert_req szT alT n n bs par = .ok r2) :
    invert_in_place_req szT alT n n bs par = StackReq.tryAllOf [r1, r2] ∧
    (r1.size + r2.size ≤ USIZE_MAX →
      ∃ r, invert_in_place_req szT alT n n bs par = .ok r ∧
        r.size = r1.size + r2.size) := by
  have he : invert_in_place_req szT alT n n bs par = StackReq.tryAllOf [r1, r2] := by
    unfold invert_in_place_req
    rw [h1]
    simp only [bind, Except.bind]
    rw [h2]
  refine ⟨he, fun hs => ⟨⟨r1.size + r2.size, max (max 1 r1.align) r2.align⟩, ?_, rfl⟩⟩
  rw [he, tryAllOf_pair_ok hs]

/-- C4 witness at concrete input. -/
theorem invert_in_place_req_is_sum_composition_witness :
    temp_mat_req 8 8 4 4 = .ok ⟨128, 8⟩ ∧
    invert_req 8 8 4 4 2 Parallelism.none = .ok ⟨128, 8⟩ ∧
    invert_in_place_req 8 8 4 4 2 Parallelism.none = StackReq.tryAllOf [⟨128, 8⟩, ⟨128, 8⟩] ∧
    ((128 : Nat) + 128 ≤ USIZE_MAX →
      ∃ r, invert_in_place_req 8 8 4 4 2 Parallelism.none = .ok r ∧
        r.size = 128 + 128) := by
  have h1 : temp_mat_req 8 8 4 4 = .ok ⟨128, 8⟩ := rfl
  have h2 : invert_req 8 8 4 4 2 Parallelism.none = .ok ⟨128, 8⟩ := rfl
  have h := invert_in_place_req_is_sum_composition 8 8 4 2 Parallelism.none
    ⟨128, 8⟩ ⟨128, 8⟩ h1 h2
  exact ⟨h1, h2, h.1, h.2⟩

/-- C5: whenever both sizing functions succeed for the same arguments, the
in-place requirement's byte size dominates the out-of-place requirement's
byte size. -/
theorem invert_in_place_req_ge_invert_req (szT alT n m bs : Nat)
    (par : Parallelism) (r r' : StackReq)
    (h : invert_req szT alT n m bs par = .ok r)
    (h' : invert_in_place_req szT alT n m bs par = .ok r') :
    r.size ≤ r'.size := by
  unfold invert_in_place_req at h'
  cases htm : temp_mat_req szT alT n m with
  | error e =>
    rw [htm] at h'
    simp only [bind, Except.bind] at h'
    exact Except.noConfusion h'
  | ok r1 =>
    rw [htm] at h'
    simp only [bind, Except.bind] at h'
    rw [h] at h'
    have := tryAllOf_pair_elim h'
    omega

/-- C5 witness at concrete input. -/
theorem invert_in_place_req_ge_invert_req_witness :
    invert_req 8 8 4 4 2 Parallelism.none = .ok ⟨128, 8⟩ ∧
    invert_in_place_req 8 8 4 4 2 Parallelism.none = .ok ⟨256, 8⟩ ∧
    (StackReq.mk 128 8).size ≤ (StackReq.mk 256 8).size := by
  have h : invert_req 8 8 4 4 2 Parallelism.none = .ok ⟨128, 8⟩ := rfl
  have h' : invert_in_place_req 8 8 4 4 2 Parallelism.none = .ok ⟨256, 8⟩ := rfl
  exact ⟨h, h', invert_in_place_req_ge_invert_req 8 8 4 4 2 Parallelism.none
    ⟨128, 8⟩ ⟨256, 8⟩ h h'⟩

/-- C6: for every input, each sizing function either returns a requirement
whose size is the exact (unwrapped, untruncated) arithmetic value and lies in
the addressable range, or returns the explicit `SizeOverflow` error value. -/
theorem sizing_total_no_silent_wrap (szT alT n m bs : Nat) (par : Parallelism) :
    ((∃ r, invert_req szT alT n m bs par = .ok r ∧
        r.size = max (bs * m * szT) (n * m * szT) ∧ r.size ≤ USIZE_MAX) ∨
      invert_req szT alT n m bs par = .error .sizeOverflow) ∧
    ((∃ r, invert_in_place_req szT alT n m bs par = .ok r ∧
        r.size = n * m * szT + max (bs * m * szT) (n * m * szT) ∧
        r.size ≤ USIZE_MAX) ∨
      invert_in_place_req szT alT n m bs par = .error .sizeOverflow) := by
  by_cases hb1 : bs * m ≤ USIZE_MAX ∧ bs * m * szT ≤ USIZE_MAX
  · by_cases hb2 : n * m ≤ USIZE_MAX ∧ n * m * szT ≤ USIZE_MAX
    · have hreq : invert_req szT alT n m bs par =
          .ok ⟨max (bs * m * szT) (n * m * szT), max (max 1 alT) alT⟩ := by
        unfold invert_req
        rw [temp_mat_req_ok_of hb1.1 hb1.2]
        simp only [bind, Except.bind]
        rw [show permute_cols_in_place_req szT alT n m = .ok ⟨n * m * szT, alT⟩ from
          temp_mat_req_ok_of hb2.1 hb2.2]
        exact tryAnyOf_pair _ _
      constructor
      · exact .inl ⟨_, hreq, rfl, by show max _ _ ≤ _; omega⟩
      · by_cases hb3 : n * m * szT + max (bs * m * szT) (n * m * szT) ≤ USIZE_MAX
        · refine .inl ⟨⟨n * m * szT + max (bs * m * szT) (n * m * szT),
              max (max 1 alT) (max (max 1 alT) alT)⟩, ?_, rfl, ?_⟩
          · unfold invert_in_place_req
            rw [temp_mat_req_ok_of hb2.1 hb2.2]
            simp only [bind, Except.bind]
            rw [hreq]
            exact @tryAllOf_pair_ok ⟨n * m * szT, alT⟩
              ⟨max (bs * m * szT) (n * m * szT), max (max 1 alT) alT⟩ hb3
          · show n * m * szT + max (bs * m * szT) (n * m * szT) ≤ USIZE_MAX
            omega
        · refine .inr ?_
          unfold invert_in_place_req
          rw [temp_mat_req_ok_of hb2.1 hb2.2]
          simp only [bind, Except.bind]
          rw [hreq]
          simp only [StackReq.tryAllOf, List.foldlM, StackReq.tryAnd, checkedAdd, bind,
            Except.bind, Nat.zero_add, hb2.2, if_pos, hb3, if_neg, reduceIte]
    · have hperm : permute_cols_in_place_req szT alT n m = .error .sizeOverflow :=
        temp_mat_req_error_of hb2
      have hreq : invert_req szT alT n m bs par = .error .sizeOverflow := by
        unfold invert_req
        rw [temp_mat_req_ok_of hb1.1 hb1.2]
        simp only [bind, Except.bind]
        rw [hperm]
      refine ⟨.inr hreq, .inr ?_⟩
      unfold invert_in_place_req
      rw [temp_mat_req_error_of hb2]
      simp only [bind, Except.bind]
  · have hreq : invert_req szT alT n m bs par = .error .sizeOverflow := by
      unfold invert_req
      rw [temp_mat_req_error_of hb1]
      simp only [bind, Except.bind]
    refine ⟨.inr hreq, ?_⟩
    by_cases hb2 : n * m ≤ USIZE_MAX ∧ n * m * szT ≤ USIZE_MAX
    · refine .inr ?_
      unfold invert_in_place_req
      rw [temp_mat_req_ok_of hb2.1 hb2.2]
      simp only [bind, Except.bind]
      rw [hreq]
    · refine .inr ?_
      unfold invert_in_place_req
      rw [temp_mat_req_error_of hb2]
      simp only [bind, Except.bind]

/-- C8: a scratch region whose size and alignment equal the requirement
returned by `invert_req` is sufficient for `invert` at those dimensions: both
temporaries `invert` carves — the blocksize×n Householder-application scratch
and the row-permutation scratch — have computable requirements and each fits
(in size and in alignment) within the returned region, so no carve exceeds
it. -/
theorem invert_req_scratch_sufficient (szT alT n bs : Nat) (par : Parallelism)
    (r : StackReq) (h : invert_req szT alT n n bs par = .ok r) :
    ∃ r1 r2, temp_mat_req szT alT bs n = .ok r1 ∧
      permute_cols_in_place_req szT alT n n = .ok r2 ∧
      r1.size ≤ r.size ∧ r2.size ≤ r.size ∧
      r1.align ≤ r.align ∧ r2.align ≤ r.align := by
  unfold invert_req at h
  cases h1 : temp_mat_req szT alT bs n with
  | error e =>
    rw [h1] at h
    simp only [bind, Except.bind] at h
    exact Except.noConfusion h
  | ok r1 =>
    rw [h1] at h
    simp only [bind, Except.bind] at h
    cases h2 : permute_cols_in_place_req szT alT n n with
    | error e =>
      rw [h2] at h
      exact Except.noConfusion h
    | ok r2 =>
      rw [h2] at h
      dsimp only [] at h
      rw [tryAnyOf_pair] at h
      cases h
      exact ⟨r1, r2, rfl, rfl, by show _ ≤ max r1.size r2.size; omega,
        by show _ ≤ max r1.size r2.size; omega,
        by show _ ≤ max (max 1 r1.align) r2.align; omega,
        by show _ ≤ max (max 1 r1.align) r2.align; omega⟩

/-- C8 witness at concrete input. -/
theorem invert_req_scratch_sufficient_witness :
    invert_req 8 8 4 4 2 Parallelism.none = .ok ⟨128, 8⟩ ∧
    ∃ r1 r2, temp_mat_req 8 8 2 4 = .ok r1 ∧
      permute_cols_in_place_req 8 8 4 4 = .ok r2 ∧
      r1.size ≤ 128 ∧ r2.size ≤ 128 ∧ r1.align ≤ 8 ∧ r2.align ≤ 8 := by
  have h : invert_req 8 8 4 4 2 Parallelism.none = .ok ⟨128, 8⟩ := rfl
  exact ⟨h, invert_req_scratch_sufficient 8 8 4 2 Parallelism.none ⟨128, 8⟩ h⟩

/-- C9: round-trip correctness with exact arithmetic. If `A` was factored
upstream as `A·P = Q·R` — entrywise, every column `permFwd p j` of `A` equals
column `j` of `Q·R`, with `R` the upper triangle of `qr_factors`, `Q` the
unitary factor encoded by `(qr_factors, householder_factor)` (`QᴴQ = I`
entrywise), `R`'s diagonal nonzero, and `p` a valid permutation — then the
destination `invert` produces is an exact left inverse of `A`:
`invert_result · A = I` entrywise. Over exact field arithmetic the "fixed
numerical tolerance" of the claim is zero. -/
theorem invert_result_times_input_is_identity {α : Type} [Field α] [StarRing α]
    (dst0 qr hf A : Mat α) (p : PermutationRef) (par : Parallelism)
    (h1 : qr.nrows = qr.ncols)
    (h2 : dst0.nrows = qr.nrows) (h3 : dst0.ncols = qr.ncols)
    (h4 : hf.ncols = min qr.nrows qr.ncols) (h5 : 0 < hf.nrows)
    (h6 : p.forward.length = qr.nrows) (h6' : p.inv.length = qr.nrows)
    (hib : ∀ i, i < qr.nrows → permInv p i < qr.nrows)
    (hfi : ∀ i, i < qr.nrows → permFwd p (permInv p i) = i)
    (hd : ∀ j, j < qr.nrows → qr.entry j j ≠ 0)
    (hQ : ∀ l m, l < qr.nrows → m < qr.nrows →
      (∑ t ∈ Finset.range qr.nrows, star ((encodedQ qr hf).entry t l) *
        (encodedQ qr hf).entry t m) = if l = m then (1 : α) else 0)
    (hA : ∀ t j, t < qr.nrows → j < qr.nrows →
      A.entry t (permFwd p j) =
        ∑ m ∈ Finset.range qr.nrows, (encodedQ qr hf).entry t m *
          (if m ≤ j then qr.entry m j else 0)) :
    invert dst0 qr hf p par = .ok (invertResult dst0 qr hf p par, invertTrace) ∧
    ∀ i j, i < qr.nrows → j < qr.nrows →
      (∑ t ∈ Finset.range qr.nrows,
        (invertResult dst0 qr hf p par).entry i t * A.entry t j) =
        if i = j then (1 : α) else 0 := by
  refine ⟨invert_ok_of h1 h2 h3 h4 h5 h6', ?_⟩
  intro i j hi hj
  have hri : permInv p i < qr.nrows := hib i hi
  have hrj : permInv p j < qr.nrows := hib j hj
  have hAj : ∀ t, t < qr.nrows → A.entry t j =
      ∑ m ∈ Finset.range qr.nrows, (encodedQ qr hf).entry t m *
        (if m ≤ permInv p j then qr.entry m (permInv p j) else 0) := by
    intro t ht
    have hb := hA t (permInv p j) ht hrj
    rw [hfi j hj] at hb
    exact hb
  have hstep : (∑ t ∈ Finset.range qr.nrows,
      (invertResult dst0 qr hf p par).entry i t * A.entry t j) =
      ∑ t ∈ Finset.range qr.nrows,
        (∑ k ∈ Finset.range qr.nrows,
          (if permInv p i ≤ k then triInvEntry qr.entry (permInv p i) k else 0) *
            star ((encodedQ qr hf).entry t k)) *
        (∑ m ∈ Finset.range qr.nrows, (encodedQ qr hf).entry t m *
          (if m ≤ permInv p j then qr.entry m (permInv p j) else 0)) := by
    refine Finset.sum_congr rfl fun t ht => ?_
    rw [invertResult_entry dst0 qr hf p par h1 h2 h3 i t hri,
      hAj t (Finset.mem_range.mp ht)]
  rw [hstep,
    sum_mul_rearrange qr.nrows
      (fun k => if permInv p i ≤ k then triInvEntry qr.entry (permInv p i) k else 0)
      (fun m => if m ≤ permInv p j then qr.entry m (permInv p j) else 0)
      (fun t k => (encodedQ qr hf).entry t k) hQ,
    triInv_mul_upper qr hd (permInv p i) (permInv p j) hri hrj]
  by_cases hij : i = j
  · rw [if_pos (by rw [hij]), if_pos hij]
  · rw [if_neg ?_, if_neg hij]
    intro hrc
    exact hij ((hfi i hi).symm.trans (by rw [hrc, hfi j hj]))

/-- C9 witness: the theorem applied at a concrete 1×1 input over ℚ:
`qr = [[1]]`, `hf = [[2]]` (so the encoded Q is `[[-1]]`, which is unitary),
the identity permutation, and `A = [[-1]]`; the produced inverse times `A` is
the 1×1 identity. -/
theorem invert_result_times_input_is_identity_witness :
    invert cDst cQr cHf2 cPerm1 Parallelism.none =
      .ok (invertResult cDst cQr cHf2 cPerm1 Parallelism.none, invertTrace) ∧
    ∀ i j, i < cQr.nrows → j < cQr.nrows →
      (∑ t ∈ Finset.range cQr.nrows,
        (invertResult cDst cQr cHf2 cPerm1 Parallelism.none).entry i t *
          (⟨1, 1, fun _ _ => (-1 : ℚ)⟩ : Mat ℚ).entry t j) =
        if i = j then (1 : ℚ) else 0 :=
  invert_result_times_input_is_identity cDst cQr cHf2 ⟨1, 1, fun _ _ => (-1 : ℚ)⟩
    cPerm1 Parallelism.none (by decide) (by decide) (by decide) (by decide)
    (by decide) (by decide) (by decide)
    (by intro i hi; have hb : i < 1 := hi; interval_cases i; decide)
    (by intro i hi; have hb : i < 1 := hi; interval_cases i; decide)
    (by intro j hj; have hb : j < 1 := hj; interval_cases j; norm_num [cQr])
    (by
      intro l m hl hm
      have hbl : l < 1 := hl
      have hbm : m < 1 := hm
      interval_cases l
      interval_cases m
      simp [cQr, cHf2, encodedQ, blockReflector, blockV, blockT, matMul, matSub,
        identityMat, ctransposeMat, transposeMat, conjMat, List.range_succ,
        Finset.sum_range_succ]
      norm_num)
    (by
      intro t j ht hj
      have hbt : t < 1 := ht
      have hbj : j < 1 := hj
      interval_cases t
      interval_cases j
      simp [cQr, cHf2, permFwd, cPerm1, encodedQ, blockReflector, blockV,
        blockT, matMul, matSub, identityMat, ctransposeMat, transposeMat,
        conjMat, List.range_succ, Finset.sum_range_succ]
      norm_num)

/-- C10: both sizing functions are entirely independent of the execution
policy argument: any two policies give identical results. -/
theorem sizing_independent_of_parallelism (szT alT n m bs : Nat)
    (p1 p2 : Parallelism) :
    invert_req szT alT n m bs p1 = invert_req szT alT n m bs p2 ∧
    invert_in_place_req szT alT n m bs p1 = invert_in_place_req szT alT n m bs p2 :=
  ⟨rfl, rfl⟩

end FaerQrInverse
